import Mathlib

/-!
Shallow embedding of `src/zonal_by_raster_values.py` (zonal statistics by
raster values).

Modelling conventions:
* Floating-point pixel values are modelled as exact rationals (`ℚ`); the
  spec itself treats floating-point summation order as insignificant, and
  every comparison in the source (`min`, `max`, `numpy.isclose`, `> 0`)
  is order-theoretic, so `ℚ` captures the arithmetic exactly.
* A raster block is the list of its pixels; each pixel pairs the value-band
  reading with the zone-band reading at the same coordinate.
* `stats_dict` (a `collections.defaultdict`) is an association list from
  zone id to accumulator; `getAcc` returns the defaultdict's lazily created
  default when the key is absent, and `setAcc` creates the key on first
  write, matching defaultdict's key-creation on first subscript.
* `numpy.iinfo(int)` on a 64-bit platform is int64, so the initial
  sentinels are `2^63 - 1` and `-2^63`.
* `numpy.isclose(a, b)` with default tolerances is `|a - b| ≤ atol + rtol*|b|`
  with `atol = 1e-8`, `rtol = 1e-5`.
-/

namespace ZonalStats

/-- One pixel position: the value-raster reading paired with the
zone-raster reading at the same coordinate. -/
structure Px where
  val : ℚ
  zone : ℤ
  deriving DecidableEq, Repr

/-- Model of `numpy.isclose(a, b)` with the default `rtol=1e-5`, `atol=1e-8`:
`|a - b| <= atol + rtol * |b|`. -/
def isClose (a b : ℚ) : Bool :=
  |a - b| ≤ 1 / 100000000 + 1 / 100000 * |b|

/-- The validity mask of line 80–81:
`~numpy.isclose(value_array, value_nodata) & (zone_array != zone_nodata)`.
When the zone band has no nodata value, `zone_array != None` is elementwise
true, so the zone test passes everywhere. -/
def validPx (vnd : ℚ) (znd : Option ℤ) (p : Px) : Bool :=
  !isClose p.val vnd &&
    (match znd with
     | none => true
     | some n => p.zone != n)

/-- The per-zone accumulator record held in `stats_dict`. -/
structure Acc where
  min : ℚ
  max : ℚ
  count : ℚ
  sum : ℚ
  deriving DecidableEq, Repr

/-- The defaultdict initializer (lines 58–63): `min` starts at
`numpy.iinfo(int).max = 2^63 - 1`, `max` at `numpy.iinfo(int).min = -2^63`,
`count` and `sum` at `0.0`. -/
def defaultAcc : Acc :=
  { min := 2 ^ 63 - 1, max := -(2 ^ 63), count := 0, sum := 0 }

/-- The table `stats_dict`: an association list from zone id to accumulator.
Key order is insertion order; emission sorts the keys anyway. -/
abbrev Stats := List (ℤ × Acc)

/-- Reading `stats_dict[z]`: the stored accumulator when the key exists,
otherwise the defaultdict's freshly initialized default. -/
def getAcc (s : Stats) (z : ℤ) : Acc :=
  match s.find? (fun e => e.1 == z) with
  | some e => e.2
  | none => defaultAcc

/-- Whether `z` is a key of `stats_dict`. -/
def hasKey (s : Stats) (z : ℤ) : Bool :=
  s.any (fun e => e.1 == z)

/-- Writing `stats_dict[z] = a`: overwrite the existing key or create it. -/
def setAcc : Stats → ℤ → Acc → Stats
  | [], z, a => [(z, a)]
  | e :: rest, z, a =>
      if e.1 = z then (z, a) :: rest else e :: setAcc rest z a

/-- Model of `numpy.min` of a (nonempty) selection; 0 on the empty list, which the
source never reaches because it only reduces nonempty zone subsets. -/
def listMin : List ℚ → ℚ
  | [] => 0
  | x :: xs => xs.foldl min x

/-- Model of `numpy.max` of a (nonempty) selection. -/
def listMax : List ℚ → ℚ
  | [] => 0
  | x :: xs => xs.foldl max x

/-- Model of `valid_value[zone_mask]` for zone `z`: the values of the pixels in
`ps` whose zone equals `z`. -/
def zoneVals (z : ℤ) (ps : List Px) : List ℚ :=
  ((ps.filter (fun p => p.zone == z)).map Px.val)

/-- The body of the per-zone fold (lines 86–91) applied to the subset
values `vs` of one zone inside one block:
running min/max against the current accumulator, `count += |vs|`,
`sum += Σ vs`. -/
def applyZone (a : Acc) (vs : List ℚ) : Acc :=
  { min := min a.min (listMin vs),
    max := max a.max (listMax vs),
    count := a.count + (vs.length : ℚ),
    sum := a.sum + vs.sum }

/-- One iteration of the `for zone_val in numpy.unique(...)` loop:
read `stats_dict[z]` (creating it if absent) and fold the subset in. -/
def foldZone (s : Stats) (z : ℤ) (vs : List ℚ) : Stats :=
  setAcc s z (applyZone (getAcc s z) vs)

/-- Model of `numpy.unique`: the sorted list of distinct elements. -/
def uniqueSorted (l : List ℤ) : List ℤ :=
  List.insertionSort (· ≤ ·) l.dedup

/-- Fold one block's already-masked valid pixels, visiting the zones in
the order given by `zs` (the source uses `uniqueSorted` of the valid
zones; `zs` is kept explicit to state order-independence). -/
def foldValidZ (zs : List ℤ) (s : Stats) (valid : List Px) : Stats :=
  zs.foldl (fun s z => foldZone s z (zoneVals z valid)) s

/-- Lines 84–91: fold one block's valid pixels zone by zone, zones in
`numpy.unique` order. -/
def foldValid (s : Stats) (valid : List Px) : Stats :=
  foldValidZ (uniqueSorted (valid.map Px.zone)) s valid

/-- Lines 77–91 for one block: mask (line 80–81) then fold per zone. -/
def foldBlock (vnd : ℚ) (znd : Option ℤ) (s : Stats) (ps : List Px) : Stats :=
  foldValid s (ps.filter (validPx vnd znd))

/-- The whole block loop: fold every block, in order, starting from the
empty `stats_dict`. -/
def runBlocks (vnd : ℚ) (znd : Option ℤ) (bs : List (List Px)) : Stats :=
  bs.foldl (foldBlock vnd znd) []

/-- The block loop generalized so each block carries the order in which
its distinct zones are visited (used to state order-independence). -/
def runBlocksZ (vnd : ℚ) (znd : Option ℤ)
    (bzs : List (List Px × List ℤ)) : Stats :=
  bzs.foldl
    (fun s bz => foldValidZ bz.2 s (bz.1.filter (validPx vnd znd))) []

/-- One emitted CSV row. -/
structure Row where
  zone : ℤ
  min : ℚ
  max : ℚ
  mean : ℚ
  count : ℚ
  sum : ℚ
  deriving DecidableEq, Repr

/-- Model of `zone_list = sorted(stats_dict)` (line 94): the keys in ascending
order. -/
def sortedKeys (s : Stats) : List ℤ :=
  List.insertionSort (· ≤ ·) (s.map Prod.fst)

/-- The row built for one zone id (lines 96–106), including the division
guard: `mean = sum / count` when `count > 0`, else `0`. -/
def mkRow (s : Stats) (z : ℤ) : Row :=
  { zone := z,
    min := (getAcc s z).min,
    max := (getAcc s z).max,
    mean :=
      if 0 < (getAcc s z).count then (getAcc s z).sum / (getAcc s z).count
      else 0,
    count := (getAcc s z).count,
    sum := (getAcc s z).sum }

/-- Lines 94–106: the emitted rows, one per key, ascending by zone id. -/
def finalize (s : Stats) : List Row :=
  (sortedKeys s).map (mkRow s)

/-- All valid pixels of the whole raster (every block), in raster order. -/
def validAll (vnd : ℚ) (znd : Option ℤ) (bs : List (List Px)) : List Px :=
  bs.flatten.filter (validPx vnd znd)

/-! The top-level `__main__` flow after the warp

The grid model covers the part of the script between the warp call and
the CSV write: block enumeration over the clipped value raster,
`ReadAsArray` on both bands, the mask/fold loop, and the
`pandas.DataFrame.from_dict(...).to_csv(..., columns=column_names)`
emission. -/

/-- A raster band: reported dimensions plus the pixel at each
(row, column). -/
structure Grid (α : Type) where
  xsize : ℕ
  ysize : ℕ
  data : ℕ → ℕ → α

/-- A `ReadAsArray` window: `xoff`, `yoff`, `win_xsize`, `win_ysize`. -/
structure Window where
  xoff : ℕ
  yoff : ℕ
  win_xsize : ℕ
  win_ysize : ℕ
  deriving DecidableEq, Repr

/-- Model of `band.ReadAsArray(**window)`: the sub-array when the access window is
inside the band, a GDAL "access window out of range" error otherwise. -/
def readBlock (g : Grid α) (w : Window) : Except String (List α) :=
  if w.xoff + w.win_xsize ≤ g.xsize ∧ w.yoff + w.win_ysize ≤ g.ysize then
    .ok ((List.range w.win_ysize).flatMap (fun r =>
      (List.range w.win_xsize).map (fun c => g.data (w.yoff + r) (w.xoff + c))))
  else
    .error "ERROR 5: Access window out of range in RasterIO()"

/-- Model of `geoprocessing.iterblocks` with `offset_only=True`: the row-major block
windows tiling a raster of size `xs × ys` with block size `bw × bh`,
edge blocks clamped to the raster boundary. -/
def tileWindows (bw bh xs ys : ℕ) : List Window :=
  (List.range ((ys + bh - 1) / bh)).flatMap (fun i =>
    (List.range ((xs + bw - 1) / bw)).map (fun j =>
      { xoff := j * bw, yoff := i * bh,
        win_xsize := min bw (xs - j * bw),
        win_ysize := min bh (ys - i * bh) }))

/-- Lines 80–81 applied to one block, with the band's optional nodata
values. `numpy.isclose(value_array, None)` raises `TypeError` (numpy
cannot apply `isfinite`/subtraction to a `None` operand), so a band with
no value-nodata sentinel aborts the run; `zone_array != None` is
elementwise true, so a missing zone nodata passes every pixel. -/
def validMask (vnd : Option ℚ) (znd : Option ℤ) (ps : List Px) :
    Except String (List Px) :=
  match vnd with
  | none => .error "TypeError: ufunc isfinite not supported for None"
  | some nd => .ok (ps.filter (validPx nd znd))

/-- The column lists appended to `csv_table_dict` (lines 95–106): the
defaultdict acquires its six keys only while iterating a nonempty
`zone_list`; with zero zones it stays empty. -/
def csvTableKeys (s : Stats) : List String :=
  if s.map Prod.fst = [] then []
  else ["zone", "min", "max", "count", "sum", "mean"]

/-- The `column_names` list of line 110. -/
def column_names : List String :=
  ["zone", "min", "max", "mean", "count", "sum"]

/-- Model of `df.to_csv` with `columns=column_names` (line 111):
pandas selects the requested columns from the frame and raises `KeyError`
when none/some of them exist; on success the file carries the
`column_names` header and one row per zone. -/
def toCsv (s : Stats) : Except String (List String × List Row) :=
  if column_names.all (fun c => c ∈ csvTableKeys s) then
    .ok (column_names, finalize s)
  else
    .error "KeyError: requested columns are not in the frame"

/-- Lines 65–111: enumerate the blocks of the clipped value raster, read
both bands per block (no dimension comparison between the two rasters is
ever made), mask, fold, then emit the CSV. -/
def runMain (zoneG : Grid ℤ) (valueG : Grid ℚ) (vnd : Option ℚ)
    (znd : Option ℤ) (bw bh : ℕ) : Except String (List String × List Row) := do
  let blocks := tileWindows bw bh valueG.xsize valueG.ysize
  let s ← blocks.foldlM (fun s w => do
    let va ← readBlock valueG w
    let za ← readBlock zoneG w
    let ps := (va.zip za).map (fun q => { val := q.1, zone := q.2 })
    let valid ← validMask vnd znd ps
    pure (foldValid s valid)) ([] : Stats)
  toCsv s

/-- Whether an `Except` run completed without raising. -/
def isOkE : Except String α → Bool
  | .ok _ => true
  | .error _ => false

/-- The keys of `stats_dict`, in insertion order. -/
def keys (s : Stats) : List ℤ :=
  s.map Prod.fst

/-! Association-list lemmas for `stats_dict` -/

theorem getAcc_nil (z : ℤ) : getAcc [] z = defaultAcc := rfl

theorem getAcc_cons (e : ℤ × Acc) (rest : Stats) (z : ℤ) :
    getAcc (e :: rest) z = if e.1 = z then e.2 else getAcc rest z := by
  by_cases h : e.1 = z <;> simp [getAcc, List.find?_cons, h]

theorem hasKey_cons (e : ℤ × Acc) (rest : Stats) (z : ℤ) :
    hasKey (e :: rest) z = (e.1 == z || hasKey rest z) := by
  simp [hasKey]

theorem getAcc_setAcc_self (s : Stats) (z : ℤ) (a : Acc) :
    getAcc (setAcc s z a) z = a := by
  induction s with
  | nil => simp [setAcc, getAcc_cons]
  | cons e rest ih =>
      by_cases h : e.1 = z
      · simp [setAcc, h, getAcc_cons]
      · simp only [setAcc, if_neg h]
        rw [getAcc_cons, if_neg h, ih]

theorem getAcc_setAcc_ne (s : Stats) (z z' : ℤ) (a : Acc) (h : z' ≠ z) :
    getAcc (setAcc s z a) z' = getAcc s z' := by
  induction s with
  | nil => simp [setAcc, getAcc_cons, getAcc_nil, Ne.symm h]
  | cons e rest ih =>
      by_cases he : e.1 = z
      · subst he
        have hs : setAcc (e :: rest) e.1 a = (e.1, a) :: rest := by simp [setAcc]
        rw [hs, getAcc_cons, getAcc_cons, if_neg (Ne.symm h), if_neg (Ne.symm h)]
      · simp only [setAcc, if_neg he]
        rw [getAcc_cons, getAcc_cons, ih]

theorem mem_keys_setAcc (s : Stats) (z : ℤ) (a : Acc) (z' : ℤ) :
    z' ∈ keys (setAcc s z a) ↔ z' = z ∨ z' ∈ keys s := by
  induction s with
  | nil => simp [setAcc, keys]
  | cons e rest ih =>
      by_cases he : e.1 = z
      · subst he
        simp only [setAcc, if_pos rfl]
        simp [keys]
      · simp only [setAcc, if_neg he]
        simp only [keys, List.map_cons, List.mem_cons] at ih ⊢
        rw [ih]
        tauto

theorem hasKey_iff_mem_keys (s : Stats) (z : ℤ) :
    hasKey s z = true ↔ z ∈ keys s := by
  induction s with
  | nil => simp [hasKey, keys]
  | cons e rest ih =>
      rw [hasKey_cons]
      simp only [keys, List.map_cons, List.mem_cons, Bool.or_eq_true, beq_iff_eq]
      simp only [keys] at ih
      rw [ih]
      tauto

theorem nodup_keys_setAcc (s : Stats) (z : ℤ) (a : Acc)
    (h : (keys s).Nodup) : (keys (setAcc s z a)).Nodup := by
  induction s with
  | nil => simp [setAcc, keys]
  | cons e rest ih =>
      simp only [keys, List.map_cons, List.nodup_cons] at h
      by_cases he : e.1 = z
      · subst he
        simp only [setAcc, if_pos rfl]
        simpa [keys] using h
      · simp only [setAcc, if_neg he]
        simp only [keys, List.map_cons, List.nodup_cons]
        refine ⟨fun hmem => ?_, ih h.2⟩
        rcases (mem_keys_setAcc rest z a e.1).1 hmem with h1 | h1
        · exact he h1
        · exact h.1 h1

/-! Lemmas about `listMin` and `listMax` -/

theorem listMin_cons (x : ℚ) (xs : List ℚ) :
    listMin (x :: xs) = xs.foldl min x := rfl

theorem listMax_cons (x : ℚ) (xs : List ℚ) :
    listMax (x :: xs) = xs.foldl max x := rfl

theorem foldl_min_assoc (l : List ℚ) (a b : ℚ) :
    l.foldl min (min a b) = min a (l.foldl min b) := by
  induction l generalizing b with
  | nil => rfl
  | cons x xs ih =>
      simp only [List.foldl_cons]
      rw [min_assoc, ih]

theorem foldl_max_assoc (l : List ℚ) (a b : ℚ) :
    l.foldl max (max a b) = max a (l.foldl max b) := by
  induction l generalizing b with
  | nil => rfl
  | cons x xs ih =>
      simp only [List.foldl_cons]
      rw [max_assoc, ih]

theorem foldl_min_eq (l : List ℚ) (a : ℚ) (h : l ≠ []) :
    l.foldl min a = min a (listMin l) := by
  cases l with
  | nil => exact absurd rfl h
  | cons x xs =>
      rw [listMin_cons, List.foldl_cons]
      exact foldl_min_assoc xs a x

theorem foldl_max_eq (l : List ℚ) (a : ℚ) (h : l ≠ []) :
    l.foldl max a = max a (listMax l) := by
  cases l with
  | nil => exact absurd rfl h
  | cons x xs =>
      rw [listMax_cons, List.foldl_cons]
      exact foldl_max_assoc xs a x

theorem listMin_append (l₁ l₂ : List ℚ) (h₁ : l₁ ≠ []) (h₂ : l₂ ≠ []) :
    listMin (l₁ ++ l₂) = min (listMin l₁) (listMin l₂) := by
  cases l₁ with
  | nil => exact absurd rfl h₁
  | cons x xs =>
      rw [List.cons_append, listMin_cons, List.foldl_append,
        foldl_min_eq l₂ _ h₂, ← listMin_cons]

theorem listMax_append (l₁ l₂ : List ℚ) (h₁ : l₁ ≠ []) (h₂ : l₂ ≠ []) :
    listMax (l₁ ++ l₂) = max (listMax l₁) (listMax l₂) := by
  cases l₁ with
  | nil => exact absurd rfl h₁
  | cons x xs =>
      rw [List.cons_append, listMax_cons, List.foldl_append,
        foldl_max_eq l₂ _ h₂, ← listMax_cons]

theorem foldl_min_le_init (l : List ℚ) (a : ℚ) : l.foldl min a ≤ a := by
  induction l generalizing a with
  | nil => exact le_refl a
  | cons x xs ih =>
      exact le_trans (ih (min a x)) (min_le_left a x)

theorem le_foldl_max_init (l : List ℚ) (a : ℚ) : a ≤ l.foldl max a := by
  induction l generalizing a with
  | nil => exact le_refl a
  | cons x xs ih =>
      exact le_trans (le_max_left a x) (ih (max a x))

theorem listMin_le (l : List ℚ) (x : ℚ) (hx : x ∈ l) : listMin l ≤ x := by
  induction l with
  | nil => cases hx
  | cons y ys ih =>
      rw [listMin_cons]
      rcases List.mem_cons.1 hx with h | h
      · subst h
        exact foldl_min_le_init ys x
      · rcases List.eq_nil_or_concat ys with h0 | _
        · subst h0; cases h
        · rw [foldl_min_eq ys y (List.ne_nil_of_mem h)]
          exact le_trans (min_le_right _ _) (ih h)

theorem le_listMax (l : List ℚ) (x : ℚ) (hx : x ∈ l) : x ≤ listMax l := by
  induction l with
  | nil => cases hx
  | cons y ys ih =>
      rw [listMax_cons]
      rcases List.mem_cons.1 hx with h | h
      · subst h
        exact le_foldl_max_init ys x
      · rw [foldl_max_eq ys y (List.ne_nil_of_mem h)]
        exact le_trans (ih h) (le_max_right _ _)

theorem foldl_min_mem (l : List ℚ) (a : ℚ) :
    l.foldl min a = a ∨ l.foldl min a ∈ l := by
  induction l generalizing a with
  | nil => exact Or.inl rfl
  | cons x xs ih =>
      rw [List.foldl_cons]
      rcases ih (min a x) with h | h
      · rcases min_choice a x with hc | hc
        · exact Or.inl (h.trans hc)
        · exact Or.inr (List.mem_cons.2 (Or.inl (h.trans hc)))
      · exact Or.inr (List.mem_cons.2 (Or.inr h))

theorem foldl_max_mem (l : List ℚ) (a : ℚ) :
    l.foldl max a = a ∨ l.foldl max a ∈ l := by
  induction l generalizing a with
  | nil => exact Or.inl rfl
  | cons x xs ih =>
      rw [List.foldl_cons]
      rcases ih (max a x) with h | h
      · rcases max_choice a x with hc | hc
        · exact Or.inl (h.trans hc)
        · exact Or.inr (List.mem_cons.2 (Or.inl (h.trans hc)))
      · exact Or.inr (List.mem_cons.2 (Or.inr h))

theorem listMin_mem (l : List ℚ) (h : l ≠ []) : listMin l ∈ l := by
  cases l with
  | nil => exact absurd rfl h
  | cons x xs =>
      rw [listMin_cons]
      rcases foldl_min_mem xs x with h1 | h1
      · rw [h1]
        exact List.mem_cons_self x xs
      · exact List.mem_cons.2 (Or.inr h1)

theorem listMax_mem (l : List ℚ) (h : l ≠ []) : listMax l ∈ l := by
  cases l with
  | nil => exact absurd rfl h
  | cons x xs =>
      rw [listMax_cons]
      rcases foldl_max_mem xs x with h1 | h1
      · rw [h1]
        exact List.mem_cons_self x xs
      · exact List.mem_cons.2 (Or.inr h1)

theorem listMin_perm (l₁ l₂ : List ℚ) (h : l₁.Perm l₂) :
    listMin l₁ = listMin l₂ := by
  cases l₁ with
  | nil =>
      rw [h.symm.eq_nil]
  | cons x xs =>
      have h₁ : (x :: xs) ≠ ([] : List ℚ) := by simp
      have h₂ : l₂ ≠ [] := by
        intro h0
        exact h₁ (h0 ▸ h).eq_nil
      exact le_antisymm
        (listMin_le _ _ (h.mem_iff.2 (listMin_mem l₂ h₂)))
        (listMin_le _ _ (h.mem_iff.1 (listMin_mem _ h₁)))

theorem listMax_perm (l₁ l₂ : List ℚ) (h : l₁.Perm l₂) :
    listMax l₁ = listMax l₂ := by
  cases l₁ with
  | nil =>
      rw [h.symm.eq_nil]
  | cons x xs =>
      have h₁ : (x :: xs) ≠ ([] : List ℚ) := by simp
      have h₂ : l₂ ≠ [] := by
        intro h0
        exact h₁ (h0 ▸ h).eq_nil
      exact le_antisymm
        (le_listMax _ _ (h.mem_iff.1 (listMax_mem _ h₁)))
        (le_listMax _ _ (h.mem_iff.2 (listMax_mem l₂ h₂)))

theorem listMin_le_listMax (l : List ℚ) (h : l ≠ []) :
    listMin l ≤ listMax l :=
  le_trans (listMin_le l _ (listMax_mem l h)) (le_refl _)

/-! Merging `applyZone` folds -/

/-- The accumulator a zone ends with, as a function of the list of its
valid sample values over the whole raster. -/
def accOf (vs : List ℚ) : Acc :=
  if vs = [] then defaultAcc else applyZone defaultAcc vs

theorem applyZone_append (a : Acc) (vs₁ vs₂ : List ℚ)
    (h₁ : vs₁ ≠ []) (h₂ : vs₂ ≠ []) :
    applyZone (applyZone a vs₁) vs₂ = applyZone a (vs₁ ++ vs₂) := by
  simp only [applyZone, listMin_append _ _ h₁ h₂, listMax_append _ _ h₁ h₂,
    List.length_append, List.sum_append, Acc.mk.injEq]
  refine ⟨min_assoc _ _ _, max_assoc _ _ _, ?_, ?_⟩
  · push_cast
    ring
  · ring

/-! Characterizing one block's zone-fold -/

theorem hasKey_setAcc_iff (s : Stats) (z : ℤ) (a : Acc) (z' : ℤ) :
    hasKey (setAcc s z a) z' = true ↔ z' = z ∨ hasKey s z' = true := by
  rw [hasKey_iff_mem_keys, hasKey_iff_mem_keys, mem_keys_setAcc]

theorem zoneVals_ne_nil_iff (z : ℤ) (ps : List Px) :
    zoneVals z ps ≠ [] ↔ z ∈ ps.map Px.zone := by
  simp only [zoneVals, ne_eq, List.map_eq_nil_iff, List.filter_eq_nil_iff,
    beq_iff_eq, not_forall, List.mem_map]
  constructor
  · rintro ⟨p, hp, hz⟩
    exact ⟨p, hp, not_not.1 hz⟩
  · rintro ⟨p, hp, hz⟩
    exact ⟨p, hp, not_not.2 hz⟩

theorem zoneVals_append (z : ℤ) (l₁ l₂ : List Px) :
    zoneVals z (l₁ ++ l₂) = zoneVals z l₁ ++ zoneVals z l₂ := by
  simp [zoneVals, List.filter_append]

theorem getAcc_foldZone_self (s : Stats) (z : ℤ) (vs : List ℚ) :
    getAcc (foldZone s z vs) z = applyZone (getAcc s z) vs :=
  getAcc_setAcc_self s z _

theorem getAcc_foldZone_ne (s : Stats) (z z' : ℤ) (vs : List ℚ)
    (h : z' ≠ z) : getAcc (foldZone s z vs) z' = getAcc s z' :=
  getAcc_setAcc_ne s z z' _ h

theorem getAcc_foldValidZ (zs : List ℤ) (s : Stats) (valid : List Px)
    (z : ℤ) (hnd : zs.Nodup) :
    getAcc (foldValidZ zs s valid) z =
      if z ∈ zs then applyZone (getAcc s z) (zoneVals z valid)
      else getAcc s z := by
  induction zs generalizing s with
  | nil => simp [foldValidZ]
  | cons z' rest ih =>
      have hz' : z' ∉ rest := (List.nodup_cons.1 hnd).1
      have hnd' : rest.Nodup := (List.nodup_cons.1 hnd).2
      have hstep : foldValidZ (z' :: rest) s valid =
          foldValidZ rest (foldZone s z' (zoneVals z' valid)) valid := rfl
      rw [hstep, ih _ hnd']
      by_cases hzz : z = z'
      · subst hzz
        rw [if_neg hz', if_pos (List.mem_cons_self z rest),
          getAcc_foldZone_self]
      · by_cases hmem : z ∈ rest
        · rw [if_pos hmem, getAcc_foldZone_ne s z' z _ hzz,
            if_pos (List.mem_cons.2 (Or.inr hmem))]
        · have hno : z ∉ z' :: rest := by
            simp [List.mem_cons, hzz, hmem]
          rw [if_neg hmem, getAcc_foldZone_ne s z' z _ hzz, if_neg hno]

theorem hasKey_foldValidZ (zs : List ℤ) (s : Stats) (valid : List Px)
    (z : ℤ) :
    hasKey (foldValidZ zs s valid) z = true ↔
      z ∈ zs ∨ hasKey s z = true := by
  induction zs generalizing s with
  | nil => simp [foldValidZ]
  | cons z' rest ih =>
      have hstep : foldValidZ (z' :: rest) s valid =
          foldValidZ rest (foldZone s z' (zoneVals z' valid)) valid := rfl
      rw [hstep, ih]
      simp only [foldZone]
      rw [hasKey_setAcc_iff]
      simp only [List.mem_cons]
      tauto

theorem nodup_keys_foldValidZ (zs : List ℤ) (s : Stats) (valid : List Px)
    (h : (keys s).Nodup) : (keys (foldValidZ zs s valid)).Nodup := by
  induction zs generalizing s with
  | nil => exact h
  | cons z' rest ih =>
      exact ih _ (nodup_keys_setAcc s z' _ h)

/-! Characterizing the whole run -/

/-- A zone visiting order is admissible for a block's valid pixels when it
lists exactly the zones holding a valid pixel, each once, in any order;
`numpy.unique` of the valid zones is the canonical such list. -/
def goodZoneList (zs : List ℤ) (valid : List Px) : Prop :=
  zs.Nodup ∧ ∀ z, z ∈ zs ↔ zoneVals z valid ≠ []

theorem uniqueSorted_nodup (l : List ℤ) : (uniqueSorted l).Nodup :=
  (List.perm_insertionSort _ _).nodup_iff.2 (List.nodup_dedup l)

theorem mem_uniqueSorted (l : List ℤ) (z : ℤ) :
    z ∈ uniqueSorted l ↔ z ∈ l := by
  unfold uniqueSorted
  rw [(List.perm_insertionSort _ _).mem_iff, List.mem_dedup]

theorem goodZoneList_canonical (valid : List Px) :
    goodZoneList (uniqueSorted (valid.map Px.zone)) valid := by
  refine ⟨uniqueSorted_nodup _, fun z => ?_⟩
  rw [mem_uniqueSorted]
  exact (zoneVals_ne_nil_iff z valid).symm

theorem goodZoneList_perm (zs zs' : List ℤ) (valid : List Px)
    (h : goodZoneList zs valid) (hp : zs.Perm zs') :
    goodZoneList zs' valid :=
  ⟨hp.nodup_iff.1 h.1, fun z => (hp.mem_iff.symm).trans (h.2 z)⟩

/-- The block loop from an arbitrary starting table. -/
def runAux (vnd : ℚ) (znd : Option ℤ) (bzs : List (List Px × List ℤ))
    (s : Stats) : Stats :=
  bzs.foldl
    (fun s bz => foldValidZ bz.2 s (bz.1.filter (validPx vnd znd))) s

/-- All valid pixels of a zone-order-annotated block sequence. -/
def validCat (vnd : ℚ) (znd : Option ℤ)
    (bzs : List (List Px × List ℤ)) : List Px :=
  (bzs.map Prod.fst).flatten.filter (validPx vnd znd)

/-- How one zone's accumulator absorbs one chunk of values: untouched by
an empty chunk, folded by `applyZone` otherwise. -/
def mergeRun (a : Acc) (vs : List ℚ) : Acc :=
  if vs = [] then a else applyZone a vs

theorem mergeRun_append (a : Acc) (vs₁ vs₂ : List ℚ) :
    mergeRun (mergeRun a vs₁) vs₂ = mergeRun a (vs₁ ++ vs₂) := by
  by_cases h₁ : vs₁ = []
  · subst h₁
    simp [mergeRun]
  · by_cases h₂ : vs₂ = []
    · subst h₂
      simp [mergeRun, h₁]
    · have h12 : vs₁ ++ vs₂ ≠ [] := by simp [h₁]
      simp only [mergeRun, if_neg h₁, if_neg h₂, if_neg h12]
      exact applyZone_append _ _ _ h₁ h₂

theorem validCat_cons (vnd : ℚ) (znd : Option ℤ)
    (bz : List Px × List ℤ) (rest : List (List Px × List ℤ)) :
    validCat vnd znd (bz :: rest) =
      bz.1.filter (validPx vnd znd) ++ validCat vnd znd rest := by
  simp [validCat, List.filter_append]

theorem getAcc_runAux (vnd : ℚ) (znd : Option ℤ)
    (bzs : List (List Px × List ℤ)) (s : Stats) (z : ℤ)
    (hg : ∀ bz ∈ bzs, goodZoneList bz.2 (bz.1.filter (validPx vnd znd))) :
    getAcc (runAux vnd znd bzs s) z =
      mergeRun (getAcc s z) (zoneVals z (validCat vnd znd bzs)) := by
  induction bzs generalizing s with
  | nil => simp [runAux, validCat, zoneVals, mergeRun]
  | cons bz rest ih =>
      have hgbz : goodZoneList bz.2 (bz.1.filter (validPx vnd znd)) :=
        hg bz (List.mem_cons_self bz rest)
      have hgrest : ∀ b ∈ rest, goodZoneList b.2 (b.1.filter (validPx vnd znd)) :=
        fun b hb => hg b (List.mem_cons.2 (Or.inr hb))
      have hstep : runAux vnd znd (bz :: rest) s =
          runAux vnd znd rest
            (foldValidZ bz.2 s (bz.1.filter (validPx vnd znd))) := rfl
      rw [hstep, ih _ hgrest, getAcc_foldValidZ _ _ _ _ hgbz.1]
      rw [validCat_cons, zoneVals_append, ← mergeRun_append]
      by_cases hne : zoneVals z (bz.1.filter (validPx vnd znd)) = []
      · rw [if_neg (fun hmem => (hgbz.2 z).1 hmem hne), hne]
        simp [mergeRun]
      · rw [if_pos ((hgbz.2 z).2 hne)]
        simp [mergeRun, hne]

theorem hasKey_runAux (vnd : ℚ) (znd : Option ℤ)
    (bzs : List (List Px × List ℤ)) (s : Stats) (z : ℤ)
    (hg : ∀ bz ∈ bzs, goodZoneList bz.2 (bz.1.filter (validPx vnd znd))) :
    hasKey (runAux vnd znd bzs s) z = true ↔
      hasKey s z = true ∨ zoneVals z (validCat vnd znd bzs) ≠ [] := by
  induction bzs generalizing s with
  | nil => simp [runAux, validCat, zoneVals]
  | cons bz rest ih =>
      have hgbz : goodZoneList bz.2 (bz.1.filter (validPx vnd znd)) :=
        hg bz (List.mem_cons_self bz rest)
      have hgrest : ∀ b ∈ rest, goodZoneList b.2 (b.1.filter (validPx vnd znd)) :=
        fun b hb => hg b (List.mem_cons.2 (Or.inr hb))
      have hstep : runAux vnd znd (bz :: rest) s =
          runAux vnd znd rest
            (foldValidZ bz.2 s (bz.1.filter (validPx vnd znd))) := rfl
      rw [hstep, ih _ hgrest, hasKey_foldValidZ, hgbz.2 z, validCat_cons,
        zoneVals_append]
      simp only [ne_eq, List.append_eq_nil]
      tauto

theorem nodup_keys_runAux (vnd : ℚ) (znd : Option ℤ)
    (bzs : List (List Px × List ℤ)) (s : Stats)
    (h : (keys s).Nodup) : (keys (runAux vnd znd bzs s)).Nodup := by
  induction bzs generalizing s with
  | nil => exact h
  | cons bz rest ih =>
      exact ih _ (nodup_keys_foldValidZ _ _ _ h)

/-- The run `runBlocks` is `runBlocksZ` with the canonical (`numpy.unique`) zone
order for every block. -/
def canonicalZ (vnd : ℚ) (znd : Option ℤ) (bs : List (List Px)) :
    List (List Px × List ℤ) :=
  bs.map (fun b =>
    (b, uniqueSorted ((b.filter (validPx vnd znd)).map Px.zone)))

theorem runBlocks_eq_runAux (vnd : ℚ) (znd : Option ℤ)
    (bs : List (List Px)) :
    runBlocks vnd znd bs = runAux vnd znd (canonicalZ vnd znd bs) [] := by
  simp only [runBlocks, runAux, canonicalZ, List.foldl_map]
  rfl

theorem validCat_canonicalZ (vnd : ℚ) (znd : Option ℤ)
    (bs : List (List Px)) :
    validCat vnd znd (canonicalZ vnd znd bs) = validAll vnd znd bs := by
  have h : (canonicalZ vnd znd bs).map Prod.fst = bs := by
    rw [canonicalZ, List.map_map]
    exact List.map_id bs
  rw [validCat, h, validAll]

theorem goodZoneList_canonicalZ (vnd : ℚ) (znd : Option ℤ)
    (bs : List (List Px)) :
    ∀ bz ∈ canonicalZ vnd znd bs,
      goodZoneList bz.2 (bz.1.filter (validPx vnd znd)) := by
  intro bz hbz
  rcases List.mem_map.1 hbz with ⟨b, _, hb⟩
  subst hb
  exact goodZoneList_canonical _

/-- The accumulator every zone ends with after the whole block loop:
a pure function of the zone's valid sample values over the raster. -/
theorem getAcc_runBlocks (vnd : ℚ) (znd : Option ℤ)
    (bs : List (List Px)) (z : ℤ) :
    getAcc (runBlocks vnd znd bs) z =
      accOf (zoneVals z (validAll vnd znd bs)) := by
  rw [runBlocks_eq_runAux,
    getAcc_runAux _ _ _ _ _ (goodZoneList_canonicalZ vnd znd bs),
    validCat_canonicalZ]
  rfl

theorem hasKey_runBlocks (vnd : ℚ) (znd : Option ℤ)
    (bs : List (List Px)) (z : ℤ) :
    hasKey (runBlocks vnd znd bs) z = true ↔
      zoneVals z (validAll vnd znd bs) ≠ [] := by
  rw [runBlocks_eq_runAux,
    hasKey_runAux _ _ _ _ _ (goodZoneList_canonicalZ vnd znd bs),
    validCat_canonicalZ]
  simp [hasKey]

theorem nodup_keys_runBlocks (vnd : ℚ) (znd : Option ℤ)
    (bs : List (List Px)) : (keys (runBlocks vnd znd bs)).Nodup := by
  rw [runBlocks_eq_runAux]
  exact nodup_keys_runAux _ _ _ _ (by simp [keys])

/-! The accumulator fields as functions of the valid sample values -/

theorem accOf_count (vs : List ℚ) : (accOf vs).count = (vs.length : ℚ) := by
  by_cases h : vs = [] <;> simp [accOf, h, applyZone, defaultAcc]

theorem accOf_sum (vs : List ℚ) : (accOf vs).sum = vs.sum := by
  by_cases h : vs = [] <;> simp [accOf, h, applyZone, defaultAcc]

theorem accOf_min (vs : List ℚ) (h : vs ≠ []) :
    (accOf vs).min = min ((2 : ℚ) ^ 63 - 1) (listMin vs) := by
  simp [accOf, h, applyZone, defaultAcc]

theorem accOf_max (vs : List ℚ) (h : vs ≠ []) :
    (accOf vs).max = max (-((2 : ℚ) ^ 63)) (listMax vs) := by
  simp [accOf, h, applyZone, defaultAcc]

/-! Finalization lemmas -/

theorem mem_sortedKeys (s : Stats) (z : ℤ) :
    z ∈ sortedKeys s ↔ z ∈ keys s := by
  unfold sortedKeys keys
  rw [(List.perm_insertionSort _ _).mem_iff]

theorem mem_finalize (s : Stats) (row : Row) :
    row ∈ finalize s ↔ ∃ z ∈ sortedKeys s, mkRow s z = row := by
  rw [finalize, List.mem_map]

theorem mkRow_zone (s : Stats) (z : ℤ) : (mkRow s z).zone = z := rfl

theorem mkRow_count (s : Stats) (z : ℤ) :
    (mkRow s z).count = (getAcc s z).count := rfl

theorem mkRow_sum (s : Stats) (z : ℤ) :
    (mkRow s z).sum = (getAcc s z).sum := rfl

theorem mkRow_min (s : Stats) (z : ℤ) :
    (mkRow s z).min = (getAcc s z).min := rfl

theorem mkRow_max (s : Stats) (z : ℤ) :
    (mkRow s z).max = (getAcc s z).max := rfl

theorem finalize_congr (s₁ s₂ : Stats)
    (h1 : (keys s₁).Nodup) (h2 : (keys s₂).Nodup)
    (hmem : ∀ z, z ∈ keys s₁ ↔ z ∈ keys s₂)
    (hacc : ∀ z, getAcc s₁ z = getAcc s₂ z) :
    finalize s₁ = finalize s₂ := by
  have hperm : (keys s₁).Perm (keys s₂) :=
    (List.perm_ext_iff_of_nodup h1 h2).2 hmem
  have hsk : sortedKeys s₁ = sortedKeys s₂ := by
    unfold sortedKeys
    have p : (List.insertionSort (· ≤ ·) (s₁.map Prod.fst)).Perm
        (List.insertionSort (· ≤ ·) (s₂.map Prod.fst)) :=
      (List.perm_insertionSort _ _).trans
        (hperm.trans (List.perm_insertionSort _ _).symm)
    exact List.eq_of_perm_of_sorted p
      (List.sorted_insertionSort _ _) (List.sorted_insertionSort _ _)
  rw [finalize, finalize, hsk]
  apply List.map_congr_left
  intro z _
  unfold mkRow
  rw [hacc z]

/-! Permutation invariance helpers -/

theorem flatten_perm {α : Type} {l₁ l₂ : List (List α)} (h : l₁.Perm l₂) :
    l₁.flatten.Perm l₂.flatten := by
  induction h with
  | nil => exact .refl _
  | cons x h ih =>
      simp only [List.flatten_cons]
      exact ih.append_left x
  | swap x y l =>
      simp only [List.flatten_cons]
      rw [← List.append_assoc, ← List.append_assoc]
      exact List.perm_append_comm.append_right _
  | trans h₁ h₂ ih₁ ih₂ => exact ih₁.trans ih₂

theorem accOf_perm (vs₁ vs₂ : List ℚ) (h : vs₁.Perm vs₂) :
    accOf vs₁ = accOf vs₂ := by
  by_cases h₁ : vs₁ = []
  · subst h₁
    rw [h.symm.eq_nil]
  · have h₂ : vs₂ ≠ [] := by
      intro h0
      exact h₁ (h0 ▸ h).eq_nil
    simp only [accOf, if_neg h₁, if_neg h₂, applyZone, Acc.mk.injEq]
    exact ⟨by rw [listMin_perm _ _ h], by rw [listMax_perm _ _ h],
      by rw [h.length_eq], by rw [h.sum_eq]⟩

theorem runBlocksZ_eq_runAux (vnd : ℚ) (znd : Option ℤ)
    (bzs : List (List Px × List ℤ)) :
    runBlocksZ vnd znd bzs = runAux vnd znd bzs [] := rfl

theorem getAcc_runBlocksZ (vnd : ℚ) (znd : Option ℤ)
    (bzs : List (List Px × List ℤ)) (z : ℤ)
    (hg : ∀ bz ∈ bzs, goodZoneList bz.2 (bz.1.filter (validPx vnd znd))) :
    getAcc (runBlocksZ vnd znd bzs) z =
      accOf (zoneVals z (validCat vnd znd bzs)) := by
  rw [runBlocksZ_eq_runAux, getAcc_runAux _ _ _ _ _ hg]
  rfl

theorem hasKey_runBlocksZ (vnd : ℚ) (znd : Option ℤ)
    (bzs : List (List Px × List ℤ)) (z : ℤ)
    (hg : ∀ bz ∈ bzs, goodZoneList bz.2 (bz.1.filter (validPx vnd znd))) :
    hasKey (runBlocksZ vnd znd bzs) z = true ↔
      zoneVals z (validCat vnd znd bzs) ≠ [] := by
  rw [runBlocksZ_eq_runAux, hasKey_runAux _ _ _ _ _ hg]
  simp [hasKey]

theorem nodup_keys_runBlocksZ (vnd : ℚ) (znd : Option ℤ)
    (bzs : List (List Px × List ℤ)) :
    (keys (runBlocksZ vnd znd bzs)).Nodup := by
  rw [runBlocksZ_eq_runAux]
  exact nodup_keys_runAux _ _ _ _ (by simp [keys])

/-! Claim theorems -/

/-- Claim C1 (Conservation): every row of the emitted table carries a count
equal to the number of pixels, across the whole raster, whose zone equals
the row's zone id and which pass both validity tests, and a sum equal to
the arithmetic total of those pixels' values. -/
theorem conservation_of_count_and_sum (vnd : ℚ) (znd : Option ℤ)
    (bs : List (List Px)) (row : Row)
    (hrow : row ∈ finalize (runBlocks vnd znd bs)) :
    row.count = (((validAll vnd znd bs).filter
        (fun p => p.zone == row.zone)).length : ℚ) ∧
    row.sum = (zoneVals row.zone (validAll vnd znd bs)).sum := by
  rcases (mem_finalize _ _).1 hrow with ⟨z, _, hmk⟩
  subst hmk
  rw [mkRow_zone, mkRow_count, mkRow_sum, getAcc_runBlocks,
    accOf_count, accOf_sum]
  constructor
  · rw [zoneVals, List.length_map]
  · rfl

theorem conservation_witness :
    ({ zone := 1, min := 5, max := 7, mean := 6, count := 2, sum := 12 } : Row)
        ∈ finalize (runBlocks 0 (some (-1)) [[⟨5, 1⟩, ⟨7, 1⟩]]) ∧
    (({ zone := 1, min := 5, max := 7, mean := 6, count := 2, sum := 12 } : Row).count =
        (((validAll 0 (some (-1)) [[⟨5, 1⟩, ⟨7, 1⟩]]).filter
          (fun p => p.zone ==
            ({ zone := 1, min := 5, max := 7, mean := 6, count := 2, sum := 12 } : Row).zone)).length : ℚ) ∧
      ({ zone := 1, min := 5, max := 7, mean := 6, count := 2, sum := 12 } : Row).sum =
        (zoneVals ({ zone := 1, min := 5, max := 7, mean := 6, count := 2, sum := 12 } : Row).zone
          (validAll 0 (some (-1)) [[⟨5, 1⟩, ⟨7, 1⟩]])).sum) :=
  ⟨by with_unfolding_all decide,
   conservation_of_count_and_sum 0 (some (-1)) [[⟨5, 1⟩, ⟨7, 1⟩]] _
     (by with_unfolding_all decide)⟩

/-- Claim C2 (Nodata exclusion): a pixel whose value equals the value-nodata
sentinel within the `numpy.isclose` tolerance, or whose zone equals the
zone-nodata sentinel, contributes to no accumulator at all: deleting it
from its block leaves the entire `stats_dict` — every zone's min, max,
count, sum, and the key set itself — unchanged. -/
theorem nodata_pixel_no_effect (vnd : ℚ) (znd : Option ℤ) (p : Px)
    (hp : validPx vnd znd p = false)
    (bs₁ bs₂ : List (List Px)) (pre post : List Px) :
    runBlocks vnd znd (bs₁ ++ (pre ++ p :: post) :: bs₂) =
      runBlocks vnd znd (bs₁ ++ (pre ++ post) :: bs₂) := by
  have hfilter : (pre ++ p :: post).filter (validPx vnd znd) =
      (pre ++ post).filter (validPx vnd znd) := by
    simp [List.filter_append, List.filter_cons, hp]
  have hfb : ∀ s, foldBlock vnd znd s (pre ++ p :: post) =
      foldBlock vnd znd s (pre ++ post) := by
    intro s
    unfold foldBlock foldValid
    rw [hfilter]
  simp only [runBlocks, List.foldl_append, List.foldl_cons, hfb]

theorem nodata_pixel_no_effect_witness :
    validPx 0 (some (-1)) ⟨0, 5⟩ = false ∧
    runBlocks 0 (some (-1)) ([] ++ ([⟨5, 1⟩] ++ ⟨0, 5⟩ :: [⟨7, 2⟩]) :: []) =
      runBlocks 0 (some (-1)) ([] ++ ([⟨5, 1⟩] ++ [⟨7, 2⟩]) :: []) :=
  ⟨by with_unfolding_all decide,
   nodata_pixel_no_effect 0 (some (-1)) ⟨0, 5⟩
     (by with_unfolding_all decide) [] [] [⟨5, 1⟩] [⟨7, 2⟩]⟩

/-- Claim C6 (Mean rule with division guard): every emitted row has
`mean = sum / count` (with the emitted sum) whenever `count > 0`, and
`mean = 0` whenever `count = 0`; emission never divides by zero. -/
theorem mean_division_guard (s : Stats) (row : Row)
    (hrow : row ∈ finalize s) :
    (0 < row.count → row.mean = row.sum / row.count) ∧
    (row.count = 0 → row.mean = 0) := by
  rcases (mem_finalize _ _).1 hrow with ⟨z, _, hmk⟩
  subst hmk
  constructor
  · intro h
    have hc : 0 < (getAcc s z).count := by simpa [mkRow] using h
    simp [mkRow, hc]
  · intro h
    have hc : (getAcc s z).count = 0 := by simpa [mkRow] using h
    simp [mkRow, hc]

theorem mean_division_guard_witness :
    ({ zone := 1, min := 5, max := 7, mean := 6, count := 2, sum := 12 } : Row)
        ∈ finalize [(1, ⟨5, 7, 2, 12⟩)] ∧
    ((0 < ({ zone := 1, min := 5, max := 7, mean := 6, count := 2, sum := 12 } : Row).count →
      ({ zone := 1, min := 5, max := 7, mean := 6, count := 2, sum := 12 } : Row).mean =
        ({ zone := 1, min := 5, max := 7, mean := 6, count := 2, sum := 12 } : Row).sum /
          ({ zone := 1, min := 5, max := 7, mean := 6, count := 2, sum := 12 } : Row).count) ∧
     (({ zone := 1, min := 5, max := 7, mean := 6, count := 2, sum := 12 } : Row).count = 0 →
      ({ zone := 1, min := 5, max := 7, mean := 6, count := 2, sum := 12 } : Row).mean = 0)) :=
  ⟨by with_unfolding_all decide,
   mean_division_guard [(1, ⟨5, 7, 2, 12⟩)]
     { zone := 1, min := 5, max := 7, mean := 6, count := 2, sum := 12 }
     (by with_unfolding_all decide)⟩

/-- Claim C7 (Accumulator-table invariant): for any block sequence — hence
after each block of a longer run, since the state after `k` blocks is the
run over the first `k` blocks — every key of `stats_dict` has a count
that is positive and is a natural number, and its min is at most its max;
finalization emits rows only for existing keys, creating none. -/
theorem accumulator_invariant (vnd : ℚ) (znd : Option ℤ)
    (bs : List (List Px)) :
    (∀ z, hasKey (runBlocks vnd znd bs) z = true →
      0 < (getAcc (runBlocks vnd znd bs) z).count ∧
      (∃ n : ℕ, (getAcc (runBlocks vnd znd bs) z).count = (n : ℚ)) ∧
      (getAcc (runBlocks vnd znd bs) z).min ≤
        (getAcc (runBlocks vnd znd bs) z).max) ∧
    (∀ row ∈ finalize (runBlocks vnd znd bs),
      hasKey (runBlocks vnd znd bs) row.zone = true) := by
  constructor
  · intro z hk
    have hne : zoneVals z (validAll vnd znd bs) ≠ [] :=
      (hasKey_runBlocks vnd znd bs z).1 hk
    rw [getAcc_runBlocks]
    refine ⟨?_, ⟨(zoneVals z (validAll vnd znd bs)).length, accOf_count _⟩, ?_⟩
    · rw [accOf_count]
      exact_mod_cast List.length_pos.2 hne
    · rw [accOf_min _ hne, accOf_max _ hne]
      exact le_trans (min_le_right _ _)
        (le_trans (listMin_le_listMax _ hne) (le_max_right _ _))
  · intro row hrow
    rcases (mem_finalize _ _).1 hrow with ⟨z, hz, hmk⟩
    subst hmk
    rw [mkRow_zone, hasKey_iff_mem_keys]
    exact (mem_sortedKeys _ _).1 hz

theorem accumulator_invariant_witness :
    hasKey (runBlocks 0 (some (-1)) [[⟨5, 1⟩]]) 1 = true ∧
    (0 < (getAcc (runBlocks 0 (some (-1)) [[⟨5, 1⟩]]) 1).count ∧
     (∃ n : ℕ, (getAcc (runBlocks 0 (some (-1)) [[⟨5, 1⟩]]) 1).count = (n : ℚ)) ∧
     (getAcc (runBlocks 0 (some (-1)) [[⟨5, 1⟩]]) 1).min ≤
       (getAcc (runBlocks 0 (some (-1)) [[⟨5, 1⟩]]) 1).max) :=
  ⟨by with_unfolding_all decide,
   (accumulator_invariant 0 (some (-1)) [[⟨5, 1⟩]]).1 1
     (by with_unfolding_all decide)⟩

/-- Claim C10 (Per-zone frame property): folding one block touches only the
zones with a valid pixel inside that block — any other zone's accumulator
and its presence in the table are unchanged — and a block with no valid
pixel leaves `stats_dict` entirely identical. -/
theorem block_frame_property (vnd : ℚ) (znd : Option ℤ) (s : Stats)
    (ps : List Px) :
    (∀ z, zoneVals z (ps.filter (validPx vnd znd)) = [] →
      getAcc (foldBlock vnd znd s ps) z = getAcc s z ∧
      hasKey (foldBlock vnd znd s ps) z = hasKey s z) ∧
    (ps.filter (validPx vnd znd) = [] → foldBlock vnd znd s ps = s) := by
  constructor
  · intro z hz
    have hgood := goodZoneList_canonical (ps.filter (validPx vnd znd))
    have hnotin : z ∉ uniqueSorted ((ps.filter (validPx vnd znd)).map Px.zone) :=
      fun hmem => (hgood.2 z).1 hmem hz
    constructor
    · unfold foldBlock foldValid
      rw [getAcc_foldValidZ _ _ _ _ hgood.1, if_neg hnotin]
    · unfold foldBlock foldValid
      have h1 := hasKey_foldValidZ
        (uniqueSorted ((ps.filter (validPx vnd znd)).map Px.zone)) s
        (ps.filter (validPx vnd znd)) z
      rcases hb : hasKey s z with _ | _
      · rcases hb2 : hasKey (foldValidZ
          (uniqueSorted ((ps.filter (validPx vnd znd)).map Px.zone)) s
          (ps.filter (validPx vnd znd))) z with _ | _
        · rfl
        · rcases h1.1 hb2 with hmem | hkey
          · exact absurd hmem hnotin
          · rw [hb] at hkey
            cases hkey
      · exact h1.2 (Or.inr hb)
  · intro h
    unfold foldBlock foldValid
    rw [h]
    rfl

theorem block_frame_property_witness :
    zoneVals 7 ([⟨5, 1⟩, ⟨0, 7⟩].filter (validPx 0 (some (-1)))) = [] ∧
    (getAcc (foldBlock 0 (some (-1)) [(3, defaultAcc)] [⟨5, 1⟩, ⟨0, 7⟩]) 7 =
        getAcc [(3, defaultAcc)] 7 ∧
      hasKey (foldBlock 0 (some (-1)) [(3, defaultAcc)] [⟨5, 1⟩, ⟨0, 7⟩]) 7 =
        hasKey [(3, defaultAcc)] 7) ∧
    ([⟨0, 7⟩].filter (validPx 0 (some (-1))) = [] ∧
      foldBlock 0 (some (-1)) [(3, defaultAcc)] [⟨0, 7⟩] = [(3, defaultAcc)]) :=
  ⟨by with_unfolding_all decide,
   (block_frame_property 0 (some (-1)) [(3, defaultAcc)] [⟨5, 1⟩, ⟨0, 7⟩]).1 7
     (by with_unfolding_all decide),
   by with_unfolding_all decide,
   (block_frame_property 0 (some (-1)) [(3, defaultAcc)] [⟨0, 7⟩]).2
     (by with_unfolding_all decide)⟩

set_option maxRecDepth 4000 in
/-- Claim C3 counterexample: the initialization sentinels are the int64
extremes, not floating extremes, so a sample value above `2^63 - 1` loses
the first comparison and the sentinel is emitted as the zone's min. With
one valid pixel of value `2^63` in zone 1 (value nodata 0, zone nodata 0),
the emitted row's min is the sentinel `2^63 - 1`, not the zone's actual
minimum sample value `2^63`. -/
theorem sentinel_leak_counterexample :
    finalize (runBlocks 0 (some 0) [[⟨(2 : ℚ) ^ 63, 1⟩]]) =
      [{ zone := 1, min := 2 ^ 63 - 1, max := 2 ^ 63, mean := 2 ^ 63,
         count := 1, sum := 2 ^ 63 }] ∧
    zoneVals 1 (validAll 0 (some 0) [[⟨(2 : ℚ) ^ 63, 1⟩]]) = [(2 : ℚ) ^ 63] ∧
    ((2 : ℚ) ^ 63 - 1 ≠ listMin [(2 : ℚ) ^ 63]) :=
  ⟨by with_unfolding_all rfl, by with_unfolding_all rfl,
   by norm_num [listMin]⟩

/-- Claim C3 amended: for every zone with at least one valid sample, the
emitted min and max equal the true minimum and maximum of that zone's
valid sample values, *provided every such value lies within the int64
sentinel range* `[-2^63, 2^63 - 1]` used by the initialization (so the
first real comparison wins); outside that range the sentinel can leak. -/
theorem minmax_correct_within_sentinel_range (vnd : ℚ) (znd : Option ℤ)
    (bs : List (List Px)) (row : Row)
    (hrow : row ∈ finalize (runBlocks vnd znd bs))
    (hb : ∀ v ∈ zoneVals row.zone (validAll vnd znd bs),
      -((2 : ℚ) ^ 63) ≤ v ∧ v ≤ 2 ^ 63 - 1) :
    row.min = listMin (zoneVals row.zone (validAll vnd znd bs)) ∧
    row.max = listMax (zoneVals row.zone (validAll vnd znd bs)) := by
  rcases (mem_finalize _ _).1 hrow with ⟨z, hz, hmk⟩
  subst hmk
  rw [mkRow_zone] at hb ⊢
  have hne : zoneVals z (validAll vnd znd bs) ≠ [] := by
    refine (hasKey_runBlocks vnd znd bs z).1 ?_
    rw [hasKey_iff_mem_keys]
    exact (mem_sortedKeys _ _).1 hz
  rw [mkRow_min, mkRow_max, getAcc_runBlocks, accOf_min _ hne,
    accOf_max _ hne]
  constructor
  · exact min_eq_right (hb _ (listMin_mem _ hne)).2
  · exact max_eq_right (hb _ (listMax_mem _ hne)).1

theorem minmax_correct_witness :
    ({ zone := 1, min := 5, max := 7, mean := 6, count := 2, sum := 12 } : Row)
        ∈ finalize (runBlocks 0 (some (-1)) [[⟨5, 1⟩, ⟨7, 1⟩]]) ∧
    (∀ v ∈ zoneVals
        ({ zone := 1, min := 5, max := 7, mean := 6, count := 2, sum := 12 } : Row).zone
        (validAll 0 (some (-1)) [[⟨5, 1⟩, ⟨7, 1⟩]]),
      -((2 : ℚ) ^ 63) ≤ v ∧ v ≤ 2 ^ 63 - 1) ∧
    (({ zone := 1, min := 5, max := 7, mean := 6, count := 2, sum := 12 } : Row).min =
        listMin (zoneVals
          ({ zone := 1, min := 5, max := 7, mean := 6, count := 2, sum := 12 } : Row).zone
          (validAll 0 (some (-1)) [[⟨5, 1⟩, ⟨7, 1⟩]])) ∧
      ({ zone := 1, min := 5, max := 7, mean := 6, count := 2, sum := 12 } : Row).max =
        listMax (zoneVals
          ({ zone := 1, min := 5, max := 7, mean := 6, count := 2, sum := 12 } : Row).zone
          (validAll 0 (some (-1)) [[⟨5, 1⟩, ⟨7, 1⟩]]))) :=
  ⟨by with_unfolding_all decide, by with_unfolding_all decide,
   minmax_correct_within_sentinel_range 0 (some (-1)) [[⟨5, 1⟩, ⟨7, 1⟩]]
     { zone := 1, min := 5, max := 7, mean := 6, count := 2, sum := 12 }
     (by with_unfolding_all decide) (by with_unfolding_all decide)⟩

/-- Claim C8 (Order-independence): running the block loop on any
permutation of the block sequence, visiting each block's distinct valid
zones in any order, emits exactly the same final table — per-zone min,
max, count, sum and mean all agree (sums are exact here because values
are modelled as exact rationals, so "up to floating-point summation
reordering" becomes exact equality). -/
theorem order_independence (vnd : ℚ) (znd : Option ℤ)
    (bzs : List (List Px × List ℤ)) (bs : List (List Px))
    (hperm : (bzs.map Prod.fst).Perm bs)
    (hz : ∀ bz ∈ bzs, bz.2.Perm
      (uniqueSorted ((bz.1.filter (validPx vnd znd)).map Px.zone))) :
    finalize (runBlocksZ vnd znd bzs) = finalize (runBlocks vnd znd bs) := by
  have hg : ∀ bz ∈ bzs, goodZoneList bz.2 (bz.1.filter (validPx vnd znd)) :=
    fun bz hbz =>
      goodZoneList_perm _ _ _ (goodZoneList_canonical _) (hz bz hbz).symm
  have pv : (validCat vnd znd bzs).Perm (validAll vnd znd bs) :=
    (flatten_perm hperm).filter _
  have pvz : ∀ z, (zoneVals z (validCat vnd znd bzs)).Perm
      (zoneVals z (validAll vnd znd bs)) :=
    fun z => (pv.filter _).map _
  apply finalize_congr
  · exact nodup_keys_runBlocksZ vnd znd bzs
  · exact nodup_keys_runBlocks vnd znd bs
  · intro z
    rw [← hasKey_iff_mem_keys, ← hasKey_iff_mem_keys,
      hasKey_runBlocksZ _ _ _ _ hg, hasKey_runBlocks]
    have hiff : zoneVals z (validCat vnd znd bzs) = [] ↔
        zoneVals z (validAll vnd znd bs) = [] := by
      constructor
      · intro h0
        have hp := pvz z
        rw [h0] at hp
        exact hp.symm.eq_nil
      · intro h0
        have hp := pvz z
        rw [h0] at hp
        exact hp.eq_nil
    exact not_congr hiff
  · intro z
    rw [getAcc_runBlocksZ _ _ _ _ hg, getAcc_runBlocks]
    exact accOf_perm _ _ (pvz z)

/-- A two-block input with its zones visited in non-`unique` order. -/
def exampleBzs : List (List Px × List ℤ) :=
  [([⟨3, 2⟩, ⟨5, 1⟩], [2, 1]), ([⟨7, 1⟩], [1])]

/-- The same blocks in swapped order, canonical zone order. -/
def exampleBs : List (List Px) :=
  [[⟨7, 1⟩], [⟨3, 2⟩, ⟨5, 1⟩]]

theorem order_independence_witness :
    (exampleBzs.map Prod.fst).Perm exampleBs ∧
    (∀ bz ∈ exampleBzs, bz.2.Perm (uniqueSorted
      ((bz.1.filter (validPx 0 (some (-1)))).map Px.zone))) ∧
    finalize (runBlocksZ 0 (some (-1)) exampleBzs) =
      finalize (runBlocks 0 (some (-1)) exampleBs) :=
  ⟨by with_unfolding_all decide, by with_unfolding_all decide,
   order_independence 0 (some (-1)) exampleBzs exampleBs
     (by with_unfolding_all decide) (by with_unfolding_all decide)⟩

/-- Claim C4 (code behavior at a missing value-nodata sentinel): when the
aligned value band reports no nodata value, line 80 still calls
`numpy.isclose(value_array, None)`, which raises `TypeError` — the run
aborts at the first block instead of treating the value test as
always-true. Shown on a 1×1 raster pair whose only pixel has a valid
zone. -/
theorem missing_value_nodata_raises :
    runMain ⟨1, 1, fun _ _ => 1⟩ ⟨1, 1, fun _ _ => 5⟩ none (some (-1)) 16 16 =
      .error "TypeError: ufunc isfinite not supported for None" := by
  with_unfolding_all rfl

/-- A 2×2 zone grid, constant zone 1: reports dimensions different from
the 1×1 value grid below. -/
def mismatchZoneGrid : Grid ℤ := ⟨2, 2, fun _ _ => 1⟩

/-- A 1×1 value grid, constant value 5. -/
def mismatchValueGrid : Grid ℚ := ⟨1, 1, fun _ _ => 5⟩

/-- Claim C5 (no grid-shape precondition): the script never compares the two
rasters' dimensions. With a 2×2 zone grid and a 1×1 aligned value grid —
reported dimensions differ — the run performs its block reads and
completes normally instead of aborting before the first block read. -/
theorem shape_mismatch_not_detected :
    (mismatchZoneGrid.xsize, mismatchZoneGrid.ysize) ≠
      (mismatchValueGrid.xsize, mismatchValueGrid.ysize) ∧
    runMain mismatchZoneGrid mismatchValueGrid (some 0) (some (-1)) 16 16 =
      .ok (column_names,
        [{ zone := 1, min := 5, max := 5, mean := 5, count := 1, sum := 5 }]) :=
  ⟨by decide, by with_unfolding_all rfl⟩

/-- Claim C9 (code behavior on an empty result): when every pixel fails a
validity test, `stats_dict` stays empty, so `csv_table_dict` acquires no
columns and `to_csv(..., columns=column_names)` raises `KeyError` — the
run errors out instead of producing a zero-row table with the defined
header. Shown on a 1×1 raster pair whose only pixel's value equals the
value-nodata sentinel. -/
theorem empty_result_emission_fails :
    runMain ⟨1, 1, fun _ _ => 1⟩ ⟨1, 1, fun _ _ => 0⟩ (some 0) (some (-1)) 16 16 =
      .error "KeyError: requested columns are not in the frame" := by
  with_unfolding_all rfl

end ZonalStats
